import Mathlib

/-!
Shallow embedding of the in-house data-management ledger
(`internal/blockchain`, Go).  Every definition below is translated from the
Go source.  Two external library functions are abstracted as parameters:

* `sha : String → String` models `crypto/sha256` composed with lowercase hex
  rendering (`fmt.Sprintf("%x", sha256.Sum256([]byte(s)))`).
* `marshal : Transaction → Option String` models `encoding/json.Marshal`
  applied to a `Transaction` value; `none` models the case where the payload
  cannot be serialized (Go returns a non-nil error and a nil byte slice).

`time.Time` values are modelled by the string that their fixed textual
rendering produces; `block.Timestamp.Format(time.RFC3339)` is therefore the
stored string itself.  Go machine integers `int64`/`int` are modelled as
`Int`, `uint` as `Nat`; none of the ledger operations can overflow the Go
types on realistic chains and no claim concerns overflow.  The payload
`map[string]interface{}` is modelled as an association list with opaque
string values; the ledger never inspects it, it only flows into `marshal`.
-/

/-- `Transaction` (Go struct, fields in declaration order).  `DocumentID` and
`UserID` are Go `uint`, whose zero value is `0`. -/
structure Transaction where
  ID : String
  DocumentID : Nat
  UserID : Nat
  Action : String
  Data : List (String × String)
  Timestamp : String
  Hash : String
deriving DecidableEq, Repr

/-- `Block` (Go struct, fields in declaration order). -/
structure Block where
  Index : Int
  Timestamp : String
  Transactions : List Transaction
  PreviousHash : String
  Hash : String
  Nonce : Int
  MerkleRoot : String
deriving DecidableEq, Repr

/-- `Blockchain` (Go struct). -/
structure Blockchain where
  Blocks : List Block
  Difficulty : Int
deriving DecidableEq, Repr

/-- `calculateBlockHash`: `fmt.Sprintf("%d%s%s%s%d", Index,
Timestamp.Format(RFC3339), PreviousHash, MerkleRoot, Nonce)` hashed with
SHA-256.  The stored `Hash` field is not part of the input. -/
def calculateBlockHash (sha : String → String) (block : Block) : String :=
  sha (toString block.Index ++ block.Timestamp ++ block.PreviousHash ++
    block.MerkleRoot ++ toString block.Nonce)

/-- `calculateTransactionHash`: builds a copy of the transaction whose `Hash`
field is the Go zero value `""`, marshals it and hashes the bytes.  The Go
code discards the `json.Marshal` error (`data, _ := json.Marshal(txCopy)`);
on failure `data` is nil, so SHA-256 of the empty byte string is returned. -/
def calculateTransactionHash (sha : String → String)
    (marshal : Transaction → Option String) (tx : Transaction) : String :=
  let txCopy : Transaction :=
    { ID := tx.ID, DocumentID := tx.DocumentID, UserID := tx.UserID,
      Action := tx.Action, Data := tx.Data, Timestamp := tx.Timestamp,
      Hash := "" }
  sha (match marshal txCopy with
    | some data => data
    | none => "")

/-- `calculateMerkleRoot`: empty list → `""`; one transaction → its stored
hash; otherwise the hash of the concatenation of all stored hashes in
sequence order (the `allHashes += tx.Hash` loop). -/
def calculateMerkleRoot (sha : String → String) :
    List Transaction → String
  | [] => ""
  | [tx] => tx.Hash
  | transactions =>
      sha (transactions.foldl (fun allHashes tx => allHashes ++ tx.Hash) "")

/-- The `target += "0"` loop body of `getTarget`, run `n` times. -/
def getTargetLoop : Nat → String
  | 0 => ""
  | n + 1 => getTargetLoop n ++ "0"

/-- `getTarget`: a string of `Difficulty` zero characters (the Go loop
`for i := 0; i < bc.Difficulty; i++` runs `max Difficulty 0` times). -/
def getTarget (difficulty : Int) : String :=
  getTargetLoop difficulty.toNat

/-- Go's byte-slice prefix `hash[:n]`.  The hashes here are ASCII hex
strings, so byte positions coincide with character positions. -/
def strTake (s : String) (n : Nat) : String :=
  String.mk (s.data.take n)

/-- `isValidHash`: `hash[:len(target)] == target`. -/
def isValidHash (hash target : String) : Bool :=
  strTake hash target.length == target

/-- `mineBlock`: repeatedly hash, returning the hash once it meets the
target, incrementing `block.Nonce` otherwise.  The Go loop is unbounded; the
`fuel` argument bounds the number of iterations in the model, `none` meaning
the loop has not returned within `fuel` iterations.  The result pairs the
returned hash with the block in its final state (Go mutates `block.Nonce`
in place through the pointer). -/
def mineBlock (sha : String → String) (difficulty : Int) :
    Nat → Block → Option (String × Block)
  | 0, _ => none
  | fuel + 1, block =>
    let hash := calculateBlockHash sha block
    if isValidHash hash (getTarget difficulty) then
      some (hash, block)
    else
      mineBlock sha difficulty fuel { block with Nonce := block.Nonce + 1 }

/-- The genesis transaction literal of `createGenesisBlock` before its hash
is filled in; `DocumentID` and `UserID` are left at the Go zero value `0`
and `Hash` at `""`.  `now` is the value of `time.Now()`. -/
def genesisTransactionBase (now : String) : Transaction :=
  { ID := "genesis", DocumentID := 0, UserID := 0, Action := "genesis",
    Data := [("message", "Genesis block")], Timestamp := now, Hash := "" }

/-- The genesis transaction with `Hash` set by `calculateTransactionHash`. -/
def genesisTransaction (sha : String → String)
    (marshal : Transaction → Option String) (now : String) : Transaction :=
  { genesisTransactionBase now with
    Hash := calculateTransactionHash sha marshal (genesisTransactionBase now) }

/-- `createGenesisBlock`: block 0 with the single genesis transaction,
sentinel `PreviousHash = "0"`, nonce 0, Merkle root computed, then mined.
`now1` and `now2` are the two `time.Now()` calls. -/
def createGenesisBlock (sha : String → String)
    (marshal : Transaction → Option String) (difficulty : Int)
    (now1 now2 : String) (fuel : Nat) : Option Block :=
  let gtx := genesisTransaction sha marshal now1
  let block : Block :=
    { Index := 0, Timestamp := now2, Transactions := [gtx],
      PreviousHash := "0", Hash := "", Nonce := 0, MerkleRoot := "" }
  let block1 := { block with
    MerkleRoot := calculateMerkleRoot sha block.Transactions }
  (mineBlock sha difficulty fuel block1).map fun p =>
    { p.2 with Hash := p.1 }

/-- `NewBlockchain`: takes no arguments, fixes `Difficulty = 4`, creates and
appends the genesis block. -/
def NewBlockchain (sha : String → String)
    (marshal : Transaction → Option String) (now1 now2 : String)
    (fuel : Nat) : Option Blockchain :=
  (createGenesisBlock sha marshal 4 now1 now2 fuel).map fun genesisBlock =>
    { Blocks := [genesisBlock], Difficulty := 4 }

/-- `getLatestBlock`: `bc.Blocks[len(bc.Blocks)-1]`; Go panics on an empty
slice, so the model requires non-emptiness. -/
def getLatestBlock (bc : Blockchain) (h : bc.Blocks ≠ []) : Block :=
  bc.Blocks.getLast h

/-- `AddTransaction`: computes the transaction hash, builds a block after
the latest one with that single transaction and nonce 0, computes its
Merkle root, mines it and appends it.  The Go function always returns a nil
error; `none` in the model only means the mining loop has not returned
within `fuel` iterations.  `now` is the `time.Now()` value. -/
def AddTransaction (sha : String → String)
    (marshal : Transaction → Option String) (now : String) (fuel : Nat)
    (bc : Blockchain) (transaction : Transaction) (h : bc.Blocks ≠ []) :
    Option Blockchain :=
  let tx := { transaction with
    Hash := calculateTransactionHash sha marshal transaction }
  let latestBlock := getLatestBlock bc h
  let newBlock : Block :=
    { Index := latestBlock.Index + 1, Timestamp := now,
      Transactions := [tx], PreviousHash := latestBlock.Hash,
      Hash := "", Nonce := 0, MerkleRoot := "" }
  let newBlock1 := { newBlock with
    MerkleRoot := calculateMerkleRoot sha newBlock.Transactions }
  (mineBlock sha bc.Difficulty fuel newBlock1).map fun p =>
    { Blocks := bc.Blocks ++ [{ p.2 with Hash := p.1 }],
      Difficulty := bc.Difficulty }

/-- The body of the `ValidateChain` loop for one index `i ≥ 1`: the five
checks on `currentBlock` against `previousBlock`, in source order, with
Go's early `return false` rendered as `&&`. -/
def checkBlock (sha : String → String)
    (marshal : Transaction → Option String) (difficulty : Int)
    (previousBlock currentBlock : Block) : Bool :=
  (currentBlock.Hash == calculateBlockHash sha currentBlock) &&
  (currentBlock.PreviousHash == previousBlock.Hash) &&
  isValidHash currentBlock.Hash (getTarget difficulty) &&
  (currentBlock.MerkleRoot ==
    calculateMerkleRoot sha currentBlock.Transactions) &&
  currentBlock.Transactions.all fun tx =>
    tx.Hash == calculateTransactionHash sha marshal tx

/-- The `for i := 1; i < len(bc.Blocks); i++` walk of `ValidateChain`,
phrased on the list of blocks: each adjacent pair is checked. -/
def validateBlocks (sha : String → String)
    (marshal : Transaction → Option String) (difficulty : Int) :
    List Block → Bool
  | [] => true
  | [_] => true
  | previousBlock :: currentBlock :: rest =>
      checkBlock sha marshal difficulty previousBlock currentBlock &&
      validateBlocks sha marshal difficulty (currentBlock :: rest)

/-- `ValidateChain`: checks every block from index 1 on against its
predecessor; the genesis block itself is never checked. -/
def ValidateChain (sha : String → String)
    (marshal : Transaction → Option String) (bc : Blockchain) : Bool :=
  validateBlocks sha marshal bc.Difficulty bc.Blocks

/-- `GetTransactionHistory`: nested loop collecting, in block order then
transaction order, the transactions whose `DocumentID` matches. -/
def GetTransactionHistory (bc : Blockchain) (documentID : Nat) :
    List Transaction :=
  bc.Blocks.foldl
    (fun transactions block =>
      block.Transactions.foldl
        (fun acc tx =>
          if tx.DocumentID == documentID then acc ++ [tx] else acc)
        transactions)
    []

/-- `GetUserTransactions`: same scan keyed on `UserID`. -/
def GetUserTransactions (bc : Blockchain) (userID : Nat) :
    List Transaction :=
  bc.Blocks.foldl
    (fun transactions block =>
      block.Transactions.foldl
        (fun acc tx =>
          if tx.UserID == userID then acc ++ [tx] else acc)
        transactions)
    []

/-! ### Concrete instances used by witnesses and counterexamples -/

/-- A concrete stand-in for the SHA-256 hex digest used to evaluate the
model on closed inputs: it always meets difficulty 4. -/
def shaW : String → String := fun _ => "0000"

/-- A concrete always-succeeding marshaller. -/
def mW : Transaction → Option String := fun tx => some (tx.ID ++ tx.Action)

/-- A marshaller that always fails, modelling a payload `json.Marshal`
rejects (e.g. a `Data` value holding a channel or `NaN`). -/
def mNone : Transaction → Option String := fun _ => none

/-- A concrete transaction to append. -/
def txW : Transaction :=
  { ID := "tx1", DocumentID := 1, UserID := 7, Action := "create",
    Data := [("title", "a")], Timestamp := "t", Hash := "" }

/-- The ledger built by the constructor on the concrete instances. -/
def bcW : Blockchain :=
  (NewBlockchain shaW mW "t1" "t2" 9).getD { Blocks := [], Difficulty := 4 }

/-- The ledger after one successful append on the concrete instances. -/
def bcW2 : Blockchain :=
  (AddTransaction shaW mW "t3" 9 bcW txW (by decide)).getD bcW
/-- The ledger built by the constructor when every marshal call fails. -/
def bcN : Blockchain :=
  (NewBlockchain shaW mNone "t1" "t2" 9).getD
    { Blocks := [], Difficulty := 4 }

/-- A concrete block for exercising the miner. -/
def blkW : Block :=
  { Index := 0, Timestamp := "t", Transactions := [], PreviousHash := "0",
    Hash := "", Nonce := 0, MerkleRoot := "" }

/-! ### Shared lemmas -/

/-- When the mining loop returns, the returned hash is the block hash of the
final block state and meets the target; every field except `Nonce` is the
input block's. -/
theorem mineBlock_spec (sha : String → String) (difficulty : Int) :
    ∀ (fuel : Nat) (b : Block) (hash : String) (b2 : Block),
      mineBlock sha difficulty fuel b = some (hash, b2) →
      hash = calculateBlockHash sha b2 ∧
      isValidHash hash (getTarget difficulty) = true ∧
      b2.Index = b.Index ∧ b2.Timestamp = b.Timestamp ∧
      b2.Transactions = b.Transactions ∧
      b2.PreviousHash = b.PreviousHash ∧ b2.Hash = b.Hash ∧
      b2.MerkleRoot = b.MerkleRoot ∧ ∃ k : Nat, b2.Nonce = b.Nonce + k := by
  intro fuel
  induction fuel with
  | zero => intro b hash b2 h; simp [mineBlock] at h
  | succ n ih =>
    intro b hash b2 h
    simp only [mineBlock] at h
    split at h
    case isTrue hv =>
      simp only [Option.some.injEq, Prod.mk.injEq] at h
      obtain ⟨rfl, rfl⟩ := h
      exact ⟨rfl, hv, rfl, rfl, rfl, rfl, rfl, rfl, 0, by omega⟩
    case isFalse hv =>
      obtain ⟨h1, h2, h3, h4, h5, h6, h7, h8, k, hk⟩ := ih _ _ _ h
      refine ⟨h1, h2, by simpa using h3, by simpa using h4, by simpa using h5,
        by simpa using h6, by simpa using h7, by simpa using h8, k + 1, ?_⟩
      simp at hk
      omega

/-- The transaction hash never depends on the stored `Hash` field. -/
theorem calculateTransactionHash_setHash (sha : String → String)
    (marshal : Transaction → Option String) (tx : Transaction) (x : String) :
    calculateTransactionHash sha marshal { tx with Hash := x } =
      calculateTransactionHash sha marshal tx := rfl

/-- The block hash never depends on the stored `Hash` field. -/
theorem calculateBlockHash_setHash (sha : String → String) (b : Block)
    (x : String) :
    calculateBlockHash sha { b with Hash := x } = calculateBlockHash sha b :=
  rfl

/-- The target loop builds a string of zero characters. -/
theorem getTargetLoop_eq (n : Nat) :
    getTargetLoop n = String.mk (List.replicate n '0') := by
  induction n with
  | zero => rfl
  | succ k ih =>
    show getTargetLoop k ++ "0" = _
    rw [ih]
    show String.mk (List.replicate k '0' ++ ['0']) = _
    rw [← List.replicate_succ' k '0']

/-- The target has `difficulty.toNat` characters. -/
theorem getTarget_length (difficulty : Int) :
    (getTarget difficulty).length = difficulty.toNat := by
  rw [getTarget, getTargetLoop_eq]
  simp

/-- A hash accepted by `isValidHash` has the target as its prefix. -/
theorem isValidHash_prefix (hash target : String)
    (h : isValidHash hash target = true) :
    strTake hash target.length = target := by
  rw [isValidHash] at h
  exact eq_of_beq h

/-- Appending one block to a non-empty walk: the walk of the extended list
is the walk of the old list together with the check of the new block
against the old last block. -/
theorem validateBlocks_cons_append (sha : String → String)
    (marshal : Transaction → Option String) (difficulty : Int) (b : Block) :
    ∀ (l : List Block) (hd : Block),
      validateBlocks sha marshal difficulty (hd :: (l ++ [b])) =
        (validateBlocks sha marshal difficulty (hd :: l) &&
          checkBlock sha marshal difficulty (l.getLastD hd) b) := by
  intro l
  induction l with
  | nil =>
    intro hd
    simp [validateBlocks]
  | cons hd2 tl ih =>
    intro hd
    show (checkBlock sha marshal difficulty hd hd2 &&
        validateBlocks sha marshal difficulty (hd2 :: (tl ++ [b]))) = _
    rw [ih hd2]
    show _ = ((checkBlock sha marshal difficulty hd hd2 &&
        validateBlocks sha marshal difficulty (hd2 :: tl)) &&
      checkBlock sha marshal difficulty ((hd2 :: tl).getLastD hd) b)
    rw [List.getLastD_cons, Bool.and_assoc]

/-- The validation walk is exactly a pairwise chain condition. -/
theorem validateBlocks_eq_chain (sha : String → String)
    (marshal : Transaction → Option String) (difficulty : Int) :
    ∀ l : List Block,
      validateBlocks sha marshal difficulty l = true ↔
        List.Chain'
          (fun a b => checkBlock sha marshal difficulty a b = true) l
  | [] => by simp [validateBlocks]
  | [b] => by simp [validateBlocks]
  | a :: b :: l => by
    rw [List.chain'_cons, ← validateBlocks_eq_chain sha marshal difficulty
      (b :: l)]
    show (checkBlock sha marshal difficulty a b &&
      validateBlocks sha marshal difficulty (b :: l)) = true ↔ _
    rw [Bool.and_eq_true]

/-- Collecting loop of the query functions: the inner fold filters one
block's transactions onto the accumulator. -/
theorem foldl_collect_eq (p : Transaction → Bool) :
    ∀ (txs : List Transaction) (acc : List Transaction),
      txs.foldl (fun a tx => if p tx then a ++ [tx] else a) acc =
        acc ++ txs.filter p
  | [], acc => by simp
  | tx :: txs, acc => by
    by_cases h : p tx = true
    · simp only [List.foldl_cons, h, if_true, List.filter_cons_of_pos h]
      rw [foldl_collect_eq p txs (acc ++ [tx])]
      simp
    · have h' : p tx = false := by simpa using h
      simp only [List.foldl_cons, h', Bool.false_eq_true, if_false]
      rw [foldl_collect_eq p txs acc, List.filter_cons, h']
      simp

/-- The whole nested query loop filters the flattened transaction list. -/
theorem foldl_blocks_collect_eq (p : Transaction → Bool) :
    ∀ (blocks : List Block) (acc : List Transaction),
      blocks.foldl
        (fun transactions block =>
          block.Transactions.foldl
            (fun a tx => if p tx then a ++ [tx] else a) transactions) acc =
        acc ++ (blocks.flatMap Block.Transactions).filter p
  | [], acc => by simp
  | b :: blocks, acc => by
    simp only [List.foldl_cons]
    rw [foldl_collect_eq p b.Transactions acc,
      foldl_blocks_collect_eq p blocks (acc ++ b.Transactions.filter p)]
    simp [List.flatMap_cons, List.filter_append, List.append_assoc]

/-- Unfolding of a successful `AddTransaction`: the result appends exactly
one mined block built from the latest block and the hashed transaction. -/
theorem AddTransaction_spec (sha : String → String)
    (marshal : Transaction → Option String) (now : String) (fuel : Nat)
    (bc : Blockchain) (tx : Transaction) (h : bc.Blocks ≠ [])
    (bc2 : Blockchain)
    (ha : AddTransaction sha marshal now fuel bc tx h = some bc2) :
    ∃ (hash : String) (b2 : Block),
      mineBlock sha bc.Difficulty fuel
        { Index := (getLatestBlock bc h).Index + 1, Timestamp := now,
          Transactions :=
            [{ tx with Hash := calculateTransactionHash sha marshal tx }],
          PreviousHash := (getLatestBlock bc h).Hash, Hash := "",
          Nonce := 0,
          MerkleRoot := calculateMerkleRoot sha
            [{ tx with Hash := calculateTransactionHash sha marshal tx }] } =
        some (hash, b2) ∧
      bc2 = { Blocks := bc.Blocks ++ [{ b2 with Hash := hash }],
              Difficulty := bc.Difficulty } := by
  simp only [AddTransaction, Option.map_eq_some'] at ha
  obtain ⟨p, hp1, hp2⟩ := ha
  exact ⟨p.1, p.2, hp1, hp2.symm⟩

/-- Unfolding of a successful `NewBlockchain`: the result holds exactly the
mined genesis block and difficulty 4. -/
theorem NewBlockchain_spec (sha : String → String)
    (marshal : Transaction → Option String) (now1 now2 : String)
    (fuel : Nat) (bc : Blockchain)
    (hn : NewBlockchain sha marshal now1 now2 fuel = some bc) :
    ∃ (hash : String) (b2 : Block),
      mineBlock sha 4 fuel
        { Index := 0, Timestamp := now2,
          Transactions := [genesisTransaction sha marshal now1],
          PreviousHash := "0", Hash := "", Nonce := 0,
          MerkleRoot := calculateMerkleRoot sha
            [genesisTransaction sha marshal now1] } = some (hash, b2) ∧
      bc = { Blocks := [{ b2 with Hash := hash }], Difficulty := 4 } := by
  simp only [NewBlockchain, createGenesisBlock, Option.map_eq_some'] at hn
  obtain ⟨g, hg1, hg2⟩ := hn
  obtain ⟨p, hp1, hp2⟩ := hg1
  refine ⟨p.1, p.2, hp1, ?_⟩
  rw [← hg2, ← hp2]

/-- `getLast` of a cons cell as `getLastD` of the tail. -/
theorem getLast_cons_eq_getLastD {α : Type} :
    ∀ (tl : List α) (hd : α) (h : hd :: tl ≠ []),
      (hd :: tl).getLast h = tl.getLastD hd
  | [], _, _ => rfl
  | a :: tl, hd, _ => by
    rw [List.getLast_cons (by simp), getLast_cons_eq_getLastD tl a (by simp),
      List.getLastD_cons]

/-- A block produced by mining the `AddTransaction` template passes all
five `ValidateChain` checks against the latest block it was built from. -/
theorem checkBlock_mined (sha : String → String)
    (marshal : Transaction → Option String) (difficulty : Int) (fuel : Nat)
    (now : String) (latest : Block) (tx : Transaction) (hash : String)
    (b2 : Block)
    (hm : mineBlock sha difficulty fuel
      { Index := latest.Index + 1, Timestamp := now,
        Transactions :=
          [{ tx with Hash := calculateTransactionHash sha marshal tx }],
        PreviousHash := latest.Hash, Hash := "", Nonce := 0,
        MerkleRoot := calculateMerkleRoot sha
          [{ tx with Hash := calculateTransactionHash sha marshal tx }] } =
      some (hash, b2)) :
    checkBlock sha marshal difficulty latest { b2 with Hash := hash } =
      true := by
  obtain ⟨h1, h2, _, _, h5, h6, _, h8, _, _⟩ :=
    mineBlock_spec sha difficulty fuel _ hash b2 hm
  simp only [checkBlock, calculateBlockHash_setHash, Bool.and_eq_true,
    List.all_eq_true]
  refine ⟨⟨⟨⟨?_, ?_⟩, ?_⟩, ?_⟩, ?_⟩
  · simp [← h1]
  · simp [h6]
  · simpa using h2
  · simp [h8, h5]
  · intro tx1 htx1
    simp only [h5, List.mem_singleton] at htx1
    subst htx1
    simp [calculateTransactionHash_setHash]

/-- Appending one block to a non-empty chain: validity of the extended
chain is validity of the old chain plus the check of the new block against
the old last block. -/
theorem validateBlocks_append_last (sha : String → String)
    (marshal : Transaction → Option String) (difficulty : Int)
    (l : List Block) (hl : l ≠ []) (b : Block) :
    validateBlocks sha marshal difficulty (l ++ [b]) =
      (validateBlocks sha marshal difficulty l &&
        checkBlock sha marshal difficulty (l.getLast hl) b) := by
  rcases l with _ | ⟨hd, tl⟩
  · exact absurd rfl hl
  · rw [List.cons_append, validateBlocks_cons_append,
      getLast_cons_eq_getLastD]

/-- C1: for every ledger, `ValidateChain` returns true immediately after
construction (the genesis-only chain) and after every successful
`AddTransaction`: construction and each successful append preserve chain
validity. -/
theorem C1_validateChain_after_construction_and_append
    (sha : String → String) (marshal : Transaction → Option String) :
    (∀ now1 now2 fuel bc,
      NewBlockchain sha marshal now1 now2 fuel = some bc →
      ValidateChain sha marshal bc = true) ∧
    (∀ now fuel bc tx (h : bc.Blocks ≠ []) bc2,
      ValidateChain sha marshal bc = true →
      AddTransaction sha marshal now fuel bc tx h = some bc2 →
      ValidateChain sha marshal bc2 = true) := by
  constructor
  · intro now1 now2 fuel bc hn
    obtain ⟨hash, b2, _, rfl⟩ :=
      NewBlockchain_spec sha marshal now1 now2 fuel bc hn
    rfl
  · intro now fuel bc tx h bc2 hv ha
    obtain ⟨hash, b2, hm, rfl⟩ :=
      AddTransaction_spec sha marshal now fuel bc tx h bc2 ha
    have hcheck := checkBlock_mined sha marshal bc.Difficulty fuel now
      (getLatestBlock bc h) tx hash b2 hm
    rw [ValidateChain] at hv ⊢
    rw [validateBlocks_append_last sha marshal bc.Difficulty bc.Blocks h,
      Bool.and_eq_true]
    exact ⟨hv, hcheck⟩

/-- C2: `ValidateChain` returns true iff every block from index 1 onward
passes, against its predecessor, the five checks (recomputed block hash,
previous-hash link, difficulty target, recomputed Merkle root, recomputed
transaction hashes); the genesis block at index 0 is never checked, so any
chain of length ≤ 1 validates true regardless of its contents, and one
failed check anywhere makes the whole chain invalid. -/
theorem C2_validateChain_characterisation (sha : String → String)
    (marshal : Transaction → Option String) (bc : Blockchain) :
    (ValidateChain sha marshal bc = true ↔
      ∀ (i : Nat) (h1 : 1 ≤ i) (h2 : i < bc.Blocks.length),
        checkBlock sha marshal bc.Difficulty
          (bc.Blocks.get ⟨i - 1, by omega⟩) (bc.Blocks.get ⟨i, h2⟩) =
          true) ∧
    (bc.Blocks.length ≤ 1 → ValidateChain sha marshal bc = true) := by
  constructor
  · rw [ValidateChain, validateBlocks_eq_chain, List.chain'_iff_get]
    constructor
    · intro hch i h1 h2
      obtain ⟨j, rfl⟩ : ∃ j, i = j + 1 := ⟨i - 1, by omega⟩
      exact hch j (by omega)
    · intro hall i hi
      exact hall (i + 1) (by omega) (by omega)
  · intro hlen
    rw [ValidateChain]
    have hsmall : ∀ l : List Block, l.length ≤ 1 →
        validateBlocks sha marshal bc.Difficulty l = true := by
      intro l hl
      match l, hl with
      | [], _ => rfl
      | [b], _ => rfl
      | a :: b :: l, hl => simp at hl
    exact hsmall bc.Blocks hlen

/-- C3: a successful `AddTransaction` on a non-empty chain appends exactly
one block at the end: its index is the old latest index plus 1, its
previous hash is the old latest stored hash, its transaction list is
exactly the submitted transaction (with its computed hash), its Merkle
root and mined hash are computed, and the mining search starts from nonce
0; all previously existing blocks are unchanged, none removed or
reordered. -/
theorem C3_addTransaction_appends_one_block (sha : String → String)
    (marshal : Transaction → Option String) (now : String) (fuel : Nat)
    (bc : Blockchain) (tx : Transaction) (h : bc.Blocks ≠ [])
    (bc2 : Blockchain)
    (ha : AddTransaction sha marshal now fuel bc tx h = some bc2) :
    ∃ (nb b2 : Block),
      bc2.Blocks = bc.Blocks ++ [nb] ∧
      nb.Index = (getLatestBlock bc h).Index + 1 ∧
      nb.PreviousHash = (getLatestBlock bc h).Hash ∧
      nb.Transactions =
        [{ tx with Hash := calculateTransactionHash sha marshal tx }] ∧
      nb.MerkleRoot = calculateMerkleRoot sha nb.Transactions ∧
      nb.Hash = calculateBlockHash sha nb ∧
      mineBlock sha bc.Difficulty fuel
        { Index := (getLatestBlock bc h).Index + 1, Timestamp := now,
          Transactions :=
            [{ tx with Hash := calculateTransactionHash sha marshal tx }],
          PreviousHash := (getLatestBlock bc h).Hash, Hash := "",
          Nonce := 0,
          MerkleRoot := calculateMerkleRoot sha
            [{ tx with Hash := calculateTransactionHash sha marshal tx }] } =
        some (nb.Hash, b2) ∧
      nb = { b2 with Hash := nb.Hash } := by
  obtain ⟨hash, b2, hm, rfl⟩ :=
    AddTransaction_spec sha marshal now fuel bc tx h bc2 ha
  obtain ⟨h1, _, h3, _, h5, h6, _, h8, _, _⟩ :=
    mineBlock_spec sha bc.Difficulty fuel _ hash b2 hm
  refine ⟨{ b2 with Hash := hash }, b2, rfl, by simpa using h3,
    by simpa using h6, by simpa using h5, ?_, ?_, hm, rfl⟩
  · show b2.MerkleRoot = calculateMerkleRoot sha b2.Transactions
    rw [h5, h8]
  · show hash = calculateBlockHash sha { b2 with Hash := hash }
    rw [calculateBlockHash_setHash, h1]

/-- C4: `calculateMerkleRoot` returns the empty string on the empty list,
the transaction's own stored hash (no further hashing) on a singleton, and
on two or more transactions a single hash of the concatenation of all
stored transaction hashes in sequence order — not a pairwise Merkle
tree. -/
theorem C4_merkleRoot_cases (sha : String → String) :
    calculateMerkleRoot sha [] = "" ∧
    (∀ tx : Transaction, calculateMerkleRoot sha [tx] = tx.Hash) ∧
    (∀ txs : List Transaction, 2 ≤ txs.length →
      calculateMerkleRoot sha txs =
        sha (String.join (txs.map Transaction.Hash))) := by
  refine ⟨rfl, fun tx => rfl, ?_⟩
  intro txs hlen
  match txs, hlen with
  | a :: b :: rest, _ =>
    show sha ((a :: b :: rest).foldl
      (fun allHashes tx => allHashes ++ tx.Hash) "") = _
    rw [show String.join ((a :: b :: rest).map Transaction.Hash) =
      ((a :: b :: rest).map Transaction.Hash).foldl (· ++ ·) "" from rfl,
      List.foldl_map]

/-- C5: whenever the mining search returns a hash, that hash's prefix of
length `difficulty` is a string of `difficulty` zero characters, and the
hash equals `calculateBlockHash` of the block in its final state (with the
nonce left by the search). -/
theorem C5_mineBlock_postcondition (sha : String → String)
    (difficulty : Int) (fuel : Nat) (b : Block) (hash : String)
    (b2 : Block) (hm : mineBlock sha difficulty fuel b = some (hash, b2)) :
    strTake hash difficulty.toNat =
      String.mk (List.replicate difficulty.toNat '0') ∧
    hash = calculateBlockHash sha b2 := by
  obtain ⟨h1, h2, _⟩ := mineBlock_spec sha difficulty fuel b hash b2 hm
  refine ⟨?_, h1⟩
  have hp := isValidHash_prefix hash (getTarget difficulty) h2
  rw [getTarget_length] at hp
  rw [hp, getTarget, getTargetLoop_eq]

/-- C6: the transaction hash is computed from a copy whose `Hash` field is
cleared, so it never depends on the stored hash, and any two transactions
agreeing on all fields except `Hash` get the same transaction hash. -/
theorem C6_transactionHash_deterministic (sha : String → String)
    (marshal : Transaction → Option String) :
    (∀ (tx : Transaction) (x : String),
      calculateTransactionHash sha marshal { tx with Hash := x } =
        calculateTransactionHash sha marshal tx) ∧
    (∀ tx1 tx2 : Transaction,
      tx1.ID = tx2.ID → tx1.DocumentID = tx2.DocumentID →
      tx1.UserID = tx2.UserID → tx1.Action = tx2.Action →
      tx1.Data = tx2.Data → tx1.Timestamp = tx2.Timestamp →
      calculateTransactionHash sha marshal tx1 =
        calculateTransactionHash sha marshal tx2) := by
  refine ⟨calculateTransactionHash_setHash sha marshal, ?_⟩
  intro tx1 tx2 h1 h2 h3 h4 h5 h6
  simp only [calculateTransactionHash, h1, h2, h3, h4, h5, h6]


/-- C7 (divergence witness): when the payload cannot be serialized
(`marshal` always fails), the code silently hashes the empty input — the
transaction hash is `sha ""` — and `AddTransaction` still appends the
transaction and succeeds, instead of surfacing the failure and leaving the
chain unchanged. -/
theorem C7_serialization_failure_silently_appended :
    calculateTransactionHash shaW mNone txW = shaW "" ∧
    ∃ bc2, AddTransaction shaW mNone "t3" 9 bcN txW (by decide) =
        some bc2 ∧
      bc2.Blocks.length = bcN.Blocks.length + 1 ∧
      ∃ nb, bc2.Blocks.getLast? = some nb ∧
        nb.Transactions = [{ txW with Hash := shaW "" }] := by decide

/-- C8 (counterexample): the constructor takes no difficulty argument; in
particular a ledger "constructed with difficulty 5" still has difficulty
4, refuting the claim at `d = 5`. -/
theorem C8_counterexample :
    ¬ ((NewBlockchain shaW mW "t1" "t2" 9).map Blockchain.Difficulty =
      some 5) := by decide

/-- C8 (amended): `NewBlockchain` takes no difficulty argument and always
sets the difficulty to 4; no operation modifies it afterwards
(`AddTransaction` preserves it). -/
theorem C8_difficulty_always_4_and_fixed (sha : String → String)
    (marshal : Transaction → Option String) :
    (∀ now1 now2 fuel bc,
      NewBlockchain sha marshal now1 now2 fuel = some bc →
      bc.Difficulty = 4) ∧
    (∀ now fuel bc tx (h : bc.Blocks ≠ []) bc2,
      AddTransaction sha marshal now fuel bc tx h = some bc2 →
      bc2.Difficulty = bc.Difficulty) := by
  constructor
  · intro now1 now2 fuel bc hn
    obtain ⟨hash, b2, _, rfl⟩ :=
      NewBlockchain_spec sha marshal now1 now2 fuel bc hn
    rfl
  · intro now fuel bc tx h bc2 ha
    obtain ⟨hash, b2, _, rfl⟩ :=
      AddTransaction_spec sha marshal now fuel bc tx h bc2 ha
    rfl

/-- C9: the history queries return exactly the matching transactions, in
block order and then transaction order within a block — i.e. the filter of
the flattened chain — for document ids and user ids alike. -/
theorem C9_queries_filter_in_order (bc : Blockchain)
    (documentID userID : Nat) :
    GetTransactionHistory bc documentID =
      (bc.Blocks.flatMap Block.Transactions).filter
        (fun tx => tx.DocumentID == documentID) ∧
    GetUserTransactions bc userID =
      (bc.Blocks.flatMap Block.Transactions).filter
        (fun tx => tx.UserID == userID) := by
  constructor
  · rw [GetTransactionHistory, foldl_blocks_collect_eq]
    simp
  · rw [GetUserTransactions, foldl_blocks_collect_eq]
    simp

/-- C10: in a freshly constructed ledger the genesis transaction's
document id and user id are the `uint` zero value 0, so querying either
history with id 0 returns the genesis transaction. -/
theorem C10_genesis_ids_zero_and_queryable (sha : String → String)
    (marshal : Transaction → Option String) (now1 now2 : String)
    (fuel : Nat) (bc : Blockchain)
    (hn : NewBlockchain sha marshal now1 now2 fuel = some bc) :
    (genesisTransaction sha marshal now1).DocumentID = 0 ∧
    (genesisTransaction sha marshal now1).UserID = 0 ∧
    GetTransactionHistory bc 0 = [genesisTransaction sha marshal now1] ∧
    GetUserTransactions bc 0 = [genesisTransaction sha marshal now1] := by
  obtain ⟨hash, b2, hm, rfl⟩ :=
    NewBlockchain_spec sha marshal now1 now2 fuel bc hn
  obtain ⟨_, _, _, _, h5, _⟩ := mineBlock_spec sha 4 fuel _ hash b2 hm
  refine ⟨rfl, rfl, ?_, ?_⟩
  · rw [GetTransactionHistory, foldl_blocks_collect_eq]
    simp [h5, genesisTransaction, genesisTransactionBase]
  · rw [GetUserTransactions, foldl_blocks_collect_eq]
    simp [h5, genesisTransaction, genesisTransactionBase]


/-- C1 at concrete inputs: the fresh ledger and its one-append extension
both validate. -/
theorem C1_witness :
    ValidateChain shaW mW bcW = true ∧
    ValidateChain shaW mW bcW2 = true :=
  ⟨(C1_validateChain_after_construction_and_append shaW mW).1
      "t1" "t2" 9 bcW (by decide),
   (C1_validateChain_after_construction_and_append shaW mW).2
      "t3" 9 bcW txW (by decide) bcW2 (by decide) (by decide)⟩

/-- C2 at concrete inputs: block 1 of the valid two-block ledger passes
the five checks against block 0. -/
theorem C2_witness :
    checkBlock shaW mW bcW2.Difficulty (bcW2.Blocks.get ⟨0, by decide⟩)
      (bcW2.Blocks.get ⟨1, by decide⟩) = true :=
  (C2_validateChain_characterisation shaW mW bcW2).1.mp (by decide) 1
    (by decide) (by decide)

/-- C3 at concrete inputs. -/
theorem C3_witness :
    ∃ (nb b2 : Block),
      bcW2.Blocks = bcW.Blocks ++ [nb] ∧
      nb.Index = (getLatestBlock bcW (by decide)).Index + 1 ∧
      nb.PreviousHash = (getLatestBlock bcW (by decide)).Hash ∧
      nb.Transactions =
        [{ txW with Hash := calculateTransactionHash shaW mW txW }] ∧
      nb.MerkleRoot = calculateMerkleRoot shaW nb.Transactions ∧
      nb.Hash = calculateBlockHash shaW nb ∧
      mineBlock shaW bcW.Difficulty 9
        { Index := (getLatestBlock bcW (by decide)).Index + 1,
          Timestamp := "t3",
          Transactions :=
            [{ txW with Hash := calculateTransactionHash shaW mW txW }],
          PreviousHash := (getLatestBlock bcW (by decide)).Hash,
          Hash := "", Nonce := 0,
          MerkleRoot := calculateMerkleRoot shaW
            [{ txW with Hash := calculateTransactionHash shaW mW txW }] } =
        some (nb.Hash, b2) ∧
      nb = { b2 with Hash := nb.Hash } :=
  C3_addTransaction_appends_one_block shaW mW "t3" 9 bcW txW (by decide)
    bcW2 (by decide)

/-- C4 at concrete inputs. -/
theorem C4_witness :
    calculateMerkleRoot shaW [] = "" ∧
    calculateMerkleRoot shaW [txW] = txW.Hash ∧
    calculateMerkleRoot shaW [txW, genesisTransactionBase "t1"] =
      shaW (String.join
        ([txW, genesisTransactionBase "t1"].map Transaction.Hash)) :=
  ⟨(C4_merkleRoot_cases shaW).1, (C4_merkleRoot_cases shaW).2.1 txW,
   (C4_merkleRoot_cases shaW).2.2 [txW, genesisTransactionBase "t1"]
     (by decide)⟩

/-- C5 at concrete inputs. -/
theorem C5_witness :
    strTake "0000" (4 : Int).toNat =
      String.mk (List.replicate (4 : Int).toNat '0') ∧
    "0000" = calculateBlockHash shaW blkW :=
  C5_mineBlock_postcondition shaW 4 9 blkW "0000" blkW (by decide)

/-- C6 at concrete inputs. -/
theorem C6_witness :
    calculateTransactionHash shaW mW { txW with Hash := "zzz" } =
      calculateTransactionHash shaW mW txW ∧
    calculateTransactionHash shaW mW txW =
      calculateTransactionHash shaW mW { txW with Hash := "yyy" } :=
  ⟨(C6_transactionHash_deterministic shaW mW).1 txW "zzz",
   (C6_transactionHash_deterministic shaW mW).2 txW
     { txW with Hash := "yyy" } rfl rfl rfl rfl rfl rfl⟩

/-- C8 (amended) at concrete inputs. -/
theorem C8_witness :
    bcW.Difficulty = 4 ∧ bcW2.Difficulty = bcW.Difficulty :=
  ⟨(C8_difficulty_always_4_and_fixed shaW mW).1 "t1" "t2" 9 bcW
      (by decide),
   (C8_difficulty_always_4_and_fixed shaW mW).2 "t3" 9 bcW txW
      (by decide) bcW2 (by decide)⟩

/-- C10 at concrete inputs. -/
theorem C10_witness :
    (genesisTransaction shaW mW "t1").DocumentID = 0 ∧
    (genesisTransaction shaW mW "t1").UserID = 0 ∧
    GetTransactionHistory bcW 0 = [genesisTransaction shaW mW "t1"] ∧
    GetUserTransactions bcW 0 = [genesisTransaction shaW mW "t1"] :=
  C10_genesis_ids_zero_and_queryable shaW mW "t1" "t2" 9 bcW (by decide)
